import Mathlib

/-!
Verification of the gnosis-lsp core: the wiki-link span parser
(src/hover_preview.rs, src/goto_definition.rs) and the hybrid
reference-count index (src/link_references.rs, src/server.rs).

Rust strings are modelled at the byte level (`ByteStr := List Nat`),
because the parser indexes lines by byte offsets and Rust string
slicing panics on out-of-range or non-character-boundary indices.
Panicking slice operations are modelled with `Except Unit`.
-/

/-- Byte strings: a Rust `String`/`&str` is a sequence of bytes. -/
abbrev ByteStr := List Nat

instance {ε α : Type} [DecidableEq ε] [DecidableEq α] : DecidableEq (Except ε α) :=
  fun a b =>
    match a, b with
    | .ok x, .ok y =>
      if h : x = y then .isTrue (by rw [h])
      else .isFalse (by intro hh; cases hh; exact h rfl)
    | .error x, .error y =>
      if h : x = y then .isTrue (by rw [h])
      else .isFalse (by intro hh; cases hh; exact h rfl)
    | .ok _, .error _ => .isFalse (by intro h; cases h)
    | .error _, .ok _ => .isFalse (by intro h; cases h)

/-- Bytes of an ASCII string literal (used only to write concrete inputs). -/
def bytesOfAscii (s : String) : ByteStr :=
  s.data.map Char.toNat

/-- Rust `str::is_char_boundary`: true at 0, at the total length, and at any
index holding a byte that is not a UTF-8 continuation byte (`b as i8 >= -0x40`). -/
def isCharBoundary (s : ByteStr) (i : Nat) : Bool :=
  if i = 0 then true
  else
    match s[i]? with
    | none => decide (i = s.length)
    | some b => !(decide (0x80 ≤ b) && decide (b < 0xC0))

/-- Rust `&line[..col]`: panics unless `col` is a char boundary. -/
def sliceTo (s : ByteStr) (i : Nat) : Except Unit ByteStr :=
  if isCharBoundary s i then .ok (s.take i) else .error ()

/-- Rust `&line[col..]`: panics unless `col` is a char boundary. -/
def sliceFrom (s : ByteStr) (i : Nat) : Except Unit ByteStr :=
  if isCharBoundary s i then .ok (s.drop i) else .error ()

/-- Rust `&line[a..b]`: panics unless `a ≤ b` and both ends are char
boundaries. -/
def sliceBetween (s : ByteStr) (a b : Nat) : Except Unit ByteStr :=
  if a ≤ b ∧ isCharBoundary s a ∧ isCharBoundary s b then
    .ok ((s.drop a).take (b - a))
  else .error ()

/-- Rust `str::find(pat)`: byte index of the first occurrence of `pat`. -/
def findSub (s pat : ByteStr) : Option Nat :=
  (List.range (s.length + 1)).find? (fun i => pat.isPrefixOf (s.drop i))

/-- Rust `str::rfind(pat)`: byte index of the last occurrence of `pat`. -/
def rfindSub (s pat : ByteStr) : Option Nat :=
  (List.range (s.length + 1)).reverse.find? (fun i => pat.isPrefixOf (s.drop i))

/-- Rust `str::split(c)` on a one-byte ASCII separator: splits at every
occurrence; the empty string yields one empty part. -/
def splitOnByte (sep : Nat) : ByteStr → List ByteStr
  | [] => [[]]
  | b :: rest =>
    if b = sep then [] :: splitOnByte sep rest
    else
      match splitOnByte sep rest with
      | [] => [[b]]
      | h :: t => (b :: h) :: t

/-- UTF-8 encodings of the Unicode `White_Space` code points, the set
trimmed by Rust `str::trim` and matched by the search tool's `\s`. -/
def wsEncodings : List ByteStr :=
  [[0x09], [0x0A], [0x0B], [0x0C], [0x0D], [0x20],
   [0xC2, 0x85], [0xC2, 0xA0],
   [0xE1, 0x9A, 0x80],
   [0xE2, 0x80, 0x80], [0xE2, 0x80, 0x81], [0xE2, 0x80, 0x82],
   [0xE2, 0x80, 0x83], [0xE2, 0x80, 0x84], [0xE2, 0x80, 0x85],
   [0xE2, 0x80, 0x86], [0xE2, 0x80, 0x87], [0xE2, 0x80, 0x88],
   [0xE2, 0x80, 0x89], [0xE2, 0x80, 0x8A],
   [0xE2, 0x80, 0xA8], [0xE2, 0x80, 0xA9], [0xE2, 0x80, 0xAF],
   [0xE2, 0x81, 0x9F], [0xE3, 0x80, 0x80]]

/-- Strip one leading whitespace character (as a UTF-8 byte sequence), if any. -/
def stripOneWs (s : ByteStr) : Option ByteStr :=
  (wsEncodings.find? (fun w => w.isPrefixOf s)).map (fun w => s.drop w.length)

/-- Fuel-driven loop for `trimStart`. -/
def trimStartAux : Nat → ByteStr → ByteStr
  | 0, s => s
  | fuel + 1, s =>
    match stripOneWs s with
    | some s' => trimStartAux fuel s'
    | none => s

/-- Rust `str::trim_start` at the byte level. -/
def trimStart (s : ByteStr) : ByteStr :=
  trimStartAux s.length s

/-- Strip one trailing whitespace character, working on the reversed bytes. -/
def stripOneWsRev (s : ByteStr) : Option ByteStr :=
  ((wsEncodings.map List.reverse).find? (fun w => w.isPrefixOf s)).map
    (fun w => s.drop w.length)

/-- Fuel-driven loop for the reversed trim-end scan. -/
def trimEndAux : Nat → ByteStr → ByteStr
  | 0, s => s
  | fuel + 1, s =>
    match stripOneWsRev s with
    | some s' => trimEndAux fuel s'
    | none => s

/-- Rust `str::trim_end` at the byte level. -/
def trimEnd (s : ByteStr) : ByteStr :=
  (trimEndAux s.length s.reverse).reverse

/-- Rust `str::trim`. -/
def trim (s : ByteStr) : ByteStr :=
  trimEnd (trimStart s)

namespace hover_preview

/-- src/hover_preview.rs, `parse_wiki_link`.
Returns `(start_index, end_index, virtual_path, alias)`; `.error ()` models a
panic of the Rust string slicing. -/
def parse_wiki_link (line : ByteStr) (col : Nat) :
    Except Unit (Option (Nat × Nat × ByteStr × Option ByteStr)) :=
  match sliceTo line col with
  | .error _ => .error ()
  | .ok sBefore =>
    match rfindSub sBefore [0x5B, 0x5B] with
    | none => .ok none
    | some start =>
      match sliceFrom line col with
      | .error _ => .error ()
      | .ok sAfter =>
        match findSub sAfter [0x5D, 0x5D] with
        | none => .ok none
        | some rel =>
          if col < start ∨ (col + rel) + 2 < col then .ok none
          else
            match sliceBetween line (start + 2) (col + rel) with
            | .error _ => .error ()
            | .ok content =>
              match splitOnByte 0x7C content with
              | [] => .ok none
              | p0 :: rest =>
                .ok (some (start, (col + rel) + 2, trim p0,
                  match rest with
                  | [] => none
                  | p1 :: _ => some (trim p1)))

end hover_preview

namespace goto_definition

/-- src/goto_definition.rs, `parse_wiki_link` (its own private copy; it binds
the relative index `end_rel` before adding `col`). -/
def parse_wiki_link (line : ByteStr) (col : Nat) :
    Except Unit (Option (Nat × Nat × ByteStr × Option ByteStr)) :=
  match sliceTo line col with
  | .error _ => .error ()
  | .ok sBefore =>
    match rfindSub sBefore [0x5B, 0x5B] with
    | none => .ok none
    | some start =>
      match sliceFrom line col with
      | .error _ => .error ()
      | .ok sAfter =>
        match findSub sAfter [0x5D, 0x5D] with
        | none => .ok none
        | some end_rel =>
          if col < start ∨ (col + end_rel) + 2 < col then .ok none
          else
            match sliceBetween line (start + 2) (col + end_rel) with
            | .error _ => .error ()
            | .ok content =>
              match splitOnByte 0x7C content with
              | [] => .ok none
              | p0 :: rest =>
                .ok (some (start, (col + end_rel) + 2, trim p0,
                  match rest with
                  | [] => none
                  | p1 :: _ => some (trim p1)))

end goto_definition

namespace link_references

/-- The characters escaped by `regex::escape` (regex-syntax meta characters),
as bytes.  All of them are ASCII, so escaping per character and per byte
coincide. -/
def isMetaByte (b : Nat) : Bool :=
  b ∈ [0x5C, 0x2E, 0x2B, 0x2A, 0x3F, 0x28, 0x29, 0x7C, 0x5B, 0x5D,
       0x7B, 0x7D, 0x5E, 0x24, 0x23, 0x26, 0x2D, 0x7E]

/-- Model of `regex::escape`: prefix every meta character with a backslash. -/
def escapeBytes (s : ByteStr) : ByteStr :=
  (s.map (fun b => if isMetaByte b then [0x5C, b] else [b])).flatten

/-- The search pattern built in `HybridIndex::search_with_ripgrep`:
the bytes of `\[\[\s*{escaped}(\||\]\])`. -/
def rgPattern (virtual_path : ByteStr) : ByteStr :=
  [0x5C, 0x5B, 0x5C, 0x5B, 0x5C, 0x73, 0x2A] ++ escapeBytes virtual_path ++
    [0x28, 0x5C, 0x7C, 0x7C, 0x5C, 0x5D, 0x5C, 0x5D, 0x29]

/-- Outcome of spawning the external `rg` process: either the spawn itself
fails (`rg` missing, fork error, ...) or the process runs and its captured
stdout bytes are returned (the exit status is never inspected by the code). -/
inductive SpawnOutcome where
  | failed : SpawnOutcome
  | output : ByteStr → SpawnOutcome

/-- The external environment: what spawning `rg` with a given workspace root
and pattern produces. -/
abbrev RgEnv := ByteStr → ByteStr → SpawnOutcome

/-- Model of `stdout.lines().count()` on the lossy-decoded stdout.  Newline bytes are
single-byte UTF-8 characters, so they survive lossy decoding unchanged: the
count is the number of newline bytes, plus one for a nonempty final fragment. -/
def countLines (s : ByteStr) : Nat :=
  if s.isEmpty then 0
  else s.count 0x0A + (if s.getLast? = some 0x0A then 0 else 1)

/-- Model of `HybridIndex::search_with_ripgrep`: build the escaped pattern, spawn
`rg`; a spawn failure is propagated with `?`, otherwise the count of matching
lines in stdout is returned. -/
def search_with_ripgrep (rg : RgEnv) (workspace_root virtual_path : ByteStr) :
    Except Unit Nat :=
  match rg workspace_root (rgPattern virtual_path) with
  | .failed => .error ()
  | .output stdout => .ok (countLines stdout)

/-- The in-memory references map: virtual path ↦ (count, last-updated
instant).  Instants are modelled as naturals from a monotonic clock. -/
abbrev ReferencesMap := List (ByteStr × Nat × Nat)

/-- Model of `HashMap::get` on the model map. -/
def mapLookup (m : ReferencesMap) (k : ByteStr) : Option (Nat × Nat) :=
  match m with
  | [] => none
  | (k', v) :: rest => if k' = k then some v else mapLookup rest k

/-- Model of `HashMap::insert` on the model map: replaces any entry with the same key. -/
def mapInsert (m : ReferencesMap) (k : ByteStr) (v : Nat × Nat) : ReferencesMap :=
  (k, v) :: m.filter (fun p => decide (p.1 ≠ k))

/-- The `HybridIndex` fields: the map behind the `RwLock`, the freshness
threshold, and the workspace root. -/
structure HybridIndex where
  inner : ReferencesMap
  freshness : Nat
  workspace_root : ByteStr

/-- Model of `HybridIndex::new`. -/
def HybridIndex.new (workspace_root : ByteStr) (freshness : Nat) : HybridIndex :=
  { inner := [], freshness := freshness, workspace_root := workspace_root }

/-- Result of one `get_references_count` call: the returned
`Result<usize, _>`, the map after the call, and (ghost instrumentation, not
part of the Rust signature) whether the external search backend was invoked. -/
structure RefCountResult where
  res : Except Unit Nat
  inner : ReferencesMap
  invoked : Bool
  deriving DecidableEq

/-- Model of `HybridIndex::get_references_count`, sequentialized: `now` is the instant
read at entry, `rg` the external environment.  The first match models the
read-locked fresh-cache early return; otherwise ripgrep is consulted (`?`
propagating its failure with the map untouched) and the fresh count is
inserted under the write lock. -/
def get_references_count_core (self : HybridIndex) (rg : RgEnv) (now : Nat)
    (virtual_path : ByteStr) : RefCountResult :=
  match
    (match mapLookup self.inner virtual_path with
     | some (count, timestamp) =>
       if now - timestamp < self.freshness then some count else none
     | none => none)
  with
  | some count => ⟨.ok count, self.inner, false⟩
  | none =>
    match search_with_ripgrep rg self.workspace_root virtual_path with
    | .error e => ⟨.error e, self.inner, true⟩
    | .ok count =>
      ⟨.ok count, mapInsert self.inner virtual_path (count, now), true⟩

/-- Model of `HybridIndex::get_references_count` as its callers see it: the returned
`Result` and the updated map. -/
def get_references_count (self : HybridIndex) (rg : RgEnv) (now : Nat)
    (virtual_path : ByteStr) : Except Unit Nat × ReferencesMap :=
  ((get_references_count_core self rg now virtual_path).res,
   (get_references_count_core self rg now virtual_path).inner)

/-- Model of `Result::unwrap_or`. -/
def unwrap_or (r : Except Unit Nat) (dflt : Nat) : Nat :=
  match r with
  | .ok c => c
  | .error _ => dflt

/-- The reference count surfaced by `Backend::code_lens` (and identically by
`Backend::inlay_hint`): `get_references_count(..).await.unwrap_or(0)`. -/
def code_lens_reference_count (self : HybridIndex) (rg : RgEnv) (now : Nat)
    (virtual_path : ByteStr) : Nat :=
  unwrap_or (get_references_count self rg now virtual_path).1 0

end link_references

/-! UTF-8 validity (the invariant of a Rust `&str`), needed to reason about
which byte indices are character boundaries. -/

/-- A UTF-8 continuation byte (`0x80..=0xBF`). -/
def contB (b : Nat) : Bool :=
  decide (0x80 ≤ b) && decide (b < 0xC0)

/-- Tests `lo ≤ b ≤ hi`. -/
def inRangeB (lo hi b : Nat) : Bool :=
  decide (lo ≤ b) && decide (b ≤ hi)

/-- For a multi-byte lead byte: the number of continuation bytes and the
allowed range of the first continuation byte (RFC 3629). -/
def leadInfo (b : Nat) : Option (Nat × Nat × Nat) :=
  if 0xC2 ≤ b ∧ b ≤ 0xDF then some (1, 0x80, 0xBF)
  else if b = 0xE0 then some (2, 0xA0, 0xBF)
  else if 0xE1 ≤ b ∧ b ≤ 0xEC then some (2, 0x80, 0xBF)
  else if b = 0xED then some (2, 0x80, 0x9F)
  else if 0xEE ≤ b ∧ b ≤ 0xEF then some (2, 0x80, 0xBF)
  else if b = 0xF0 then some (3, 0x90, 0xBF)
  else if 0xF1 ≤ b ∧ b ≤ 0xF3 then some (3, 0x80, 0xBF)
  else if b = 0xF4 then some (3, 0x80, 0x8F)
  else none

/-- Well-formed UTF-8 byte sequences. -/
def utf8Valid : List Nat → Bool
  | [] => true
  | b :: r =>
    if b < 0x80 then utf8Valid r
    else
      match leadInfo b with
      | none => false
      | some (k, lo, hi) =>
        if k = 1 then
          match r with
          | c1 :: r2 => inRangeB lo hi c1 && utf8Valid r2
          | [] => false
        else if k = 2 then
          match r with
          | c1 :: c2 :: r2 => inRangeB lo hi c1 && contB c2 && utf8Valid r2
          | _ => false
        else if k = 3 then
          match r with
          | c1 :: c2 :: c3 :: r2 =>
            inRangeB lo hi c1 && contB c2 && contB c3 && utf8Valid r2
          | _ => false
        else false

/-! A small regex engine for the fragment of the search tool's pattern syntax
that `rgPattern` emits (escaped literals, `\s`, a one-level group, alternation
and postfix star).  Regular expressions over bytes reuse Mathlib's
`RegularExpression`, whose `rmatch` decides full-string matching. -/

/-- Regular expressions over bytes. -/
abbrev BRegex := RegularExpression Nat

/-- Concatenation of a list of regexes. -/
def catList (rs : List BRegex) : BRegex :=
  rs.foldr (· * ·) 1

/-- Alternation of a list of regexes. -/
def altList (rs : List BRegex) : BRegex :=
  rs.foldr (· + ·) 0

/-- A regex matching exactly the byte string `l`. -/
def litList (l : ByteStr) : BRegex :=
  catList (l.map RegularExpression.char)

/-- The byte-level meaning of `\s`: one Unicode whitespace character, i.e.
any one of the UTF-8 `wsEncodings`. -/
def wsRegex : BRegex :=
  altList (wsEncodings.map litList)

/-- Parse one non-group atom: an escaped character (`\s` becomes the
whitespace class, an escaped meta character is a literal) or a plain
literal byte. -/
def parseLit (s : ByteStr) : Option (BRegex × ByteStr) :=
  match s with
  | [] => none
  | b :: rest =>
    if b = 0x5C then
      match rest with
      | [] => none
      | c :: rest' =>
        some (if c = 0x73 then wsRegex else RegularExpression.char c, rest')
    else if b = 0x28 ∨ b = 0x29 ∨ b = 0x7C ∨ b = 0x2A then none
    else some (RegularExpression.char b, rest)

/-- Apply a postfix `*` if one follows. -/
def withStar (r : BRegex) (rest : ByteStr) : BRegex × ByteStr :=
  match rest with
  | [] => (r, [])
  | b :: rest' => if b = 0x2A then (r.star, rest') else (r, rest)

/-- Parse a group-free sequence of starred atoms, stopping before `)` or
`|`; fuel-driven. -/
def parseSeqNG (fuel : Nat) (s : ByteStr) : Option (List BRegex × ByteStr) :=
  match s with
  | [] => some ([], [])
  | b :: rest =>
    match fuel with
    | 0 => none
    | fuel + 1 =>
      if b = 0x29 ∨ b = 0x7C then some ([], b :: rest)
      else
        match parseLit (b :: rest) with
        | none => none
        | some (r, rest₁) =>
          match withStar r rest₁ with
          | (r', rest₂) =>
            match parseSeqNG fuel rest₂ with
            | none => none
            | some (rs, rest₃) => some (r' :: rs, rest₃)

/-- Parse a group-free alternation of sequences; fuel-driven. -/
def parseAltNG (fuel : Nat) (s : ByteStr) : Option (BRegex × ByteStr) :=
  match fuel with
  | 0 => none
  | fuel + 1 =>
    match parseSeqNG (s.length + 1) s with
    | none => none
    | some (rs, rest) =>
      match rest with
      | [] => some (catList rs, [])
      | c :: rest' =>
        if c = 0x7C then
          match parseAltNG fuel rest' with
          | none => none
          | some (r2, rest'') => some (catList rs + r2, rest'')
        else some (catList rs, c :: rest')

/-- Parse one item: a parenthesised group (an alternation, closed by `)`),
or a starred non-group atom. -/
def parseItem (s : ByteStr) : Option (BRegex × ByteStr) :=
  match s with
  | [] => none
  | b :: rest =>
    if b = 0x28 then
      match parseAltNG (rest.length + 1) rest with
      | none => none
      | some (r, rest₁) =>
        match rest₁ with
        | [] => none
        | c :: rest' => if c = 0x29 then some (withStar r rest') else none
    else
      match parseLit (b :: rest) with
      | none => none
      | some (r, rest₁) => some (withStar r rest₁)

/-- Parse a whole pattern as a sequence of items; fuel-driven. -/
def parseSeqTop (fuel : Nat) (s : ByteStr) : Option (List BRegex) :=
  match s with
  | [] => some []
  | b :: rest =>
    match fuel with
    | 0 => none
    | fuel + 1 =>
      match parseItem (b :: rest) with
      | none => none
      | some (r, rest₁) =>
        match parseSeqTop fuel rest₁ with
        | none => none
        | some rs => some (r :: rs)

/-- Parse a pattern string into a regex (`none` outside the supported
fragment). -/
def parseRegexStr (s : ByteStr) : Option BRegex :=
  match parseSeqTop (s.length + 1) s with
  | none => none
  | some rs => some (catList rs)

/-- The nine fixed trailing bytes of every `rgPattern`: `(\||\]\])`. -/
def groupBytes : ByteStr :=
  [0x28, 0x5C, 0x7C, 0x7C, 0x5C, 0x5D, 0x5C, 0x5D, 0x29]

/-- The regex denoted by the group `(\||\]\])`. -/
def groupAst : BRegex :=
  catList [RegularExpression.char 0x7C] +
    catList [RegularExpression.char 0x5D, RegularExpression.char 0x5D]

/-- The regex denoted by `rgPattern id`. -/
def rgPatternAst (id : ByteStr) : BRegex :=
  catList ([RegularExpression.char 0x5B, RegularExpression.char 0x5B,
    wsRegex.star] ++ id.map RegularExpression.char ++ [groupAst])

/-- A run of whitespace characters: a concatenation of UTF-8 encodings of
Unicode whitespace code points (what `\s*` matches). -/
def WsRun (w : ByteStr) : Prop :=
  ∃ parts : List ByteStr, w = parts.flatten ∧ ∀ y ∈ parts, y ∈ wsEncodings

/-- Modelled from the claim's words, not from code: `t` is one of the two
accepted surface forms of a link to `id`, namely exactly the string
`[[id]]`, or a string `[[id|anything]]`. -/
def specSurfaceForm (id t : ByteStr) : Bool :=
  decide (t = [0x5B, 0x5B] ++ id ++ [0x5D, 0x5D]) ||
    (([0x5B, 0x5B] ++ id ++ [0x7C]).isPrefixOf t && [0x5D, 0x5D].isSuffixOf t)


/-! Helper lemmas about the byte-string primitives. -/

theorem findSub_isPrefixOf {s pat : ByteStr} {i : Nat} (h : findSub s pat = some i) :
    pat.isPrefixOf (s.drop i) = true := by
  unfold findSub at h
  simpa using List.find?_some h

theorem rfindSub_isPrefixOf {s pat : ByteStr} {i : Nat} (h : rfindSub s pat = some i) :
    pat.isPrefixOf (s.drop i) = true := by
  unfold rfindSub at h
  simpa using List.find?_some h

theorem findSub_le {s pat : ByteStr} {i : Nat} (h : findSub s pat = some i) :
    i ≤ s.length := by
  have hm := List.mem_of_find?_eq_some h
  rw [List.mem_range] at hm
  omega

theorem rfindSub_le {s pat : ByteStr} {i : Nat} (h : rfindSub s pat = some i) :
    i ≤ s.length := by
  have hm := List.mem_of_find?_eq_some h
  rw [List.mem_reverse, List.mem_range] at hm
  omega

theorem findSub_add_le {s pat : ByteStr} {i : Nat} (h : findSub s pat = some i) :
    i + pat.length ≤ s.length := by
  have hp := findSub_isPrefixOf h
  rw [List.isPrefixOf_iff_prefix] at hp
  have hl := List.IsPrefix.length_le hp
  rw [List.length_drop] at hl
  have hi := findSub_le h
  omega

theorem rfindSub_add_le {s pat : ByteStr} {i : Nat} (h : rfindSub s pat = some i) :
    i + pat.length ≤ s.length := by
  have hp := rfindSub_isPrefixOf h
  rw [List.isPrefixOf_iff_prefix] at hp
  have hl := List.IsPrefix.length_le hp
  rw [List.length_drop] at hl
  have hi := rfindSub_le h
  omega

theorem prefix_two_getElem {s : ByteStr} {i a b : Nat}
    (h : List.isPrefixOf [a, b] (s.drop i) = true) :
    s[i]? = some a ∧ s[i + 1]? = some b := by
  rw [List.isPrefixOf_iff_prefix] at h
  obtain ⟨t, ht⟩ := h
  constructor
  · have h0 : (s.drop i)[0]? = some a := by rw [← ht]; simp
    rw [List.getElem?_drop] at h0
    simpa using h0
  · have h1 : (s.drop i)[1]? = some b := by rw [← ht]; simp
    rw [List.getElem?_drop] at h1
    simpa using h1

theorem isCharBoundary_le {s : ByteStr} {i : Nat} (h : isCharBoundary s i = true) :
    i ≤ s.length := by
  unfold isCharBoundary at h
  split at h
  · omega
  · cases hg : s[i]? with
    | none =>
      rw [hg] at h
      simp at h
      omega
    | some b =>
      by_contra hc
      rw [List.getElem?_eq_none (by omega)] at hg
      cases hg

theorem isCharBoundary_of_ascii {s : ByteStr} {i b : Nat} (h : s[i]? = some b)
    (hb : b < 0x80) : isCharBoundary s i = true := by
  unfold isCharBoundary
  split
  · rfl
  · rw [h]
    simp
    omega

theorem splitOnByte_ne_nil (sep : Nat) (s : ByteStr) : splitOnByte sep s ≠ [] := by
  cases s with
  | nil => simp [splitOnByte]
  | cons b rest =>
    unfold splitOnByte
    split
    · simp
    · split <;> simp

/-- C5: the hover feature's wiki-link parse and the goto-definition feature's
wiki-link parse return equal results on every line and cursor offset. -/
theorem c5_parsers_agree :
    ∀ (line : ByteStr) (col : Nat),
      hover_preview.parse_wiki_link line col = goto_definition.parse_wiki_link line col := by
  intro line col
  rfl

/-- C7: whenever the parser returns a token, its start offset is at most the
cursor and the cursor is at most its end offset. -/
theorem c7_containment :
    ∀ (line : ByteStr) (col s e : Nat) (id : ByteStr) (al : Option ByteStr),
      hover_preview.parse_wiki_link line col = .ok (some (s, e, id, al)) →
      s ≤ col ∧ col ≤ e := by
  intro line col s e id al h
  unfold hover_preview.parse_wiki_link at h
  cases h₁ : sliceTo line col with
  | error u => simp [h₁] at h
  | ok sBefore =>
    simp only [h₁] at h
    cases h₂ : rfindSub sBefore [0x5B, 0x5B] with
    | none => simp [h₂] at h
    | some start =>
      simp only [h₂] at h
      cases h₃ : sliceFrom line col with
      | error u => simp [h₃] at h
      | ok sAfter =>
        simp only [h₃] at h
        cases h₄ : findSub sAfter [0x5D, 0x5D] with
        | none => simp [h₄] at h
        | some rel =>
          simp only [h₄] at h
          by_cases h₅ : col < start ∨ (col + rel) + 2 < col
          · rw [if_pos h₅] at h
            simp at h
          · rw [if_neg h₅] at h
            push_neg at h₅
            cases h₆ : sliceBetween line (start + 2) (col + rel) with
            | error u => simp [h₆] at h
            | ok content =>
              simp only [h₆] at h
              cases h₇ : splitOnByte 0x7C content with
              | nil => simp [h₇] at h
              | cons p0 rest =>
                simp only [h₇, Except.ok.injEq, Option.some.injEq, Prod.mk.injEq] at h
                obtain ⟨hs, he, -, -⟩ := h
                omega

/-- C7 witness: the containment bound at a concrete input. -/
theorem c7_witness :
    hover_preview.parse_wiki_link (bytesOfAscii "[[x]]") 2 =
      .ok (some (0, 5, bytesOfAscii "x", none)) ∧
    0 ≤ 2 ∧ 2 ≤ 5 :=
  ⟨by decide,
   c7_containment (bytesOfAscii "[[x]]") 2 0 5 (bytesOfAscii "x") none (by decide)⟩

/-- C2 counterexample: with the cursor at byte offset 8 of the line
`[[x]] [[y]]` the parser does not return "no token": it returns the token of
the second bracket pair. -/
theorem c2_counterexample :
    hover_preview.parse_wiki_link (bytesOfAscii "[[x]] [[y]]") 8 ≠ .ok none ∧
    hover_preview.parse_wiki_link (bytesOfAscii "[[x]] [[y]]") 8 =
      .ok (some (6, 11, bytesOfAscii "y", none)) :=
  ⟨by decide, by decide⟩

/-- C2 amended: `parse("text [[x]] more", 2)` yields no token, and
`parse("[[x]] [[y]]", 8)` yields the token of the second pair
(start 6, end 11, identifier `y`, no alias), since byte offset 8 lies inside
`[[y]]`. -/
theorem c2_amended :
    hover_preview.parse_wiki_link (bytesOfAscii "text [[x]] more") 2 = .ok none ∧
    hover_preview.parse_wiki_link (bytesOfAscii "[[x]] [[y]]") 8 =
      .ok (some (6, 11, bytesOfAscii "y", none)) :=
  ⟨by decide, by decide⟩

/-- C3 counterexample: on `[[a|b|c]]` the alias is the trimmed second
split-part `b` alone, not the full remainder `b|c` after the first bar. -/
theorem c3_counterexample :
    hover_preview.parse_wiki_link (bytesOfAscii "[[a|b|c]]") 2 =
      .ok (some (0, 9, bytesOfAscii "a", some (bytesOfAscii "b"))) ∧
    some (bytesOfAscii "b") ≠ some (bytesOfAscii "b|c") :=
  ⟨by decide, by decide⟩

/-- C3 amended: whenever the parser returns a token, the bracketed content is
split at every bar; the identifier is the trimmed first part and the alias,
present exactly when a bar occurred, is the trimmed second part only (content
after a second bar is dropped). -/
theorem c3_amended :
    ∀ (line : ByteStr) (col s e : Nat) (id : ByteStr) (al : Option ByteStr),
      hover_preview.parse_wiki_link line col = .ok (some (s, e, id, al)) →
      ∃ content p0 rest, sliceBetween line (s + 2) (e - 2) = .ok content ∧
        splitOnByte 0x7C content = p0 :: rest ∧
        id = trim p0 ∧ al = rest.head?.map trim := by
  intro line col s e id al h
  unfold hover_preview.parse_wiki_link at h
  cases h₁ : sliceTo line col with
  | error u => simp [h₁] at h
  | ok sBefore =>
    simp only [h₁] at h
    cases h₂ : rfindSub sBefore [0x5B, 0x5B] with
    | none => simp [h₂] at h
    | some start =>
      simp only [h₂] at h
      cases h₃ : sliceFrom line col with
      | error u => simp [h₃] at h
      | ok sAfter =>
        simp only [h₃] at h
        cases h₄ : findSub sAfter [0x5D, 0x5D] with
        | none => simp [h₄] at h
        | some rel =>
          simp only [h₄] at h
          by_cases h₅ : col < start ∨ (col + rel) + 2 < col
          · rw [if_pos h₅] at h
            simp at h
          · rw [if_neg h₅] at h
            cases h₆ : sliceBetween line (start + 2) (col + rel) with
            | error u => simp [h₆] at h
            | ok content =>
              simp only [h₆] at h
              cases h₇ : splitOnByte 0x7C content with
              | nil => simp [h₇] at h
              | cons p0 rest =>
                simp only [h₇, Except.ok.injEq, Option.some.injEq, Prod.mk.injEq] at h
                obtain ⟨hs, he, hid, hal⟩ := h
                refine ⟨content, p0, rest, ?_, ?_, ?_, ?_⟩
                · rw [← hs, ← he]
                  simpa using h₆
                · exact h₇
                · exact hid.symm
                · cases rest with
                  | nil => simpa using hal.symm
                  | cons p1 t => simpa using hal.symm

/-- C3 witness: the amended alias rule instantiated on `[[a|b|c]]`. -/
theorem c3_witness :
    hover_preview.parse_wiki_link (bytesOfAscii "[[a|b|c]]") 2 =
      .ok (some (0, 9, bytesOfAscii "a", some (bytesOfAscii "b"))) ∧
    ∃ content p0 rest,
      sliceBetween (bytesOfAscii "[[a|b|c]]") (0 + 2) (9 - 2) = .ok content ∧
      splitOnByte 0x7C content = p0 :: rest ∧
      bytesOfAscii "a" = trim p0 ∧
      (some (bytesOfAscii "b") : Option ByteStr) = rest.head?.map trim :=
  ⟨by decide,
   c3_amended (bytesOfAscii "[[a|b|c]]") 2 0 9 (bytesOfAscii "a")
     (some (bytesOfAscii "b")) (by decide)⟩

/-- C9: when both markers are found around the cursor and they enclose an
empty substring, the parser still returns a token, with the empty identifier
and no alias, rather than rejecting. -/
theorem c9_empty_identifier :
    ∀ (line : ByteStr) (col s rel : Nat),
      isCharBoundary line col = true →
      rfindSub (line.take col) [0x5B, 0x5B] = some s →
      findSub (line.drop col) [0x5D, 0x5D] = some rel →
      col + rel = s + 2 →
      hover_preview.parse_wiki_link line col = .ok (some (s, col + rel + 2, [], none)) := by
  intro line col s rel hb hfind hrfind hempty
  have hsb : sliceTo line col = .ok (line.take col) := by
    unfold sliceTo
    rw [if_pos hb]
  have hsa : sliceFrom line col = .ok (line.drop col) := by
    unfold sliceFrom
    rw [if_pos hb]
  have hsle : s + 2 ≤ col := by
    have h1 := rfindSub_add_le hfind
    have h2 : (line.take col).length ≤ col := by
      rw [List.length_take]
      omega
    simp at h1
    omega
  have hbyte : getElem? line (col + rel) = some 0x5D := by
    have hp := findSub_isPrefixOf hrfind
    have := (prefix_two_getElem hp).1
    rw [List.getElem?_drop] at this
    exact this
  have hbnd : isCharBoundary line (col + rel) = true :=
    isCharBoundary_of_ascii hbyte (by omega)
  have hbnd2 : isCharBoundary line (s + 2) = true := by
    rw [← hempty]
    exact hbnd
  have hcontent : sliceBetween line (s + 2) (col + rel) = .ok [] := by
    unfold sliceBetween
    have hcond : s + 2 ≤ col + rel ∧ isCharBoundary line (s + 2) = true ∧
        isCharBoundary line (col + rel) = true := ⟨by omega, hbnd2, hbnd⟩
    rw [if_pos hcond]
    simp [hempty]
  unfold hover_preview.parse_wiki_link
  rw [hsb]
  simp only [hfind]
  rw [hsa]
  simp only [hrfind]
  rw [if_neg (by omega)]
  rw [hcontent]
  simp [splitOnByte, show trim [] = [] from rfl]

/-- C9 witness: `parse("[[]]", 2)` returns the empty-identifier token. -/
theorem c9_witness :
    isCharBoundary (bytesOfAscii "[[]]") 2 = true ∧
    rfindSub ((bytesOfAscii "[[]]").take 2) [0x5B, 0x5B] = some 0 ∧
    findSub ((bytesOfAscii "[[]]").drop 2) [0x5D, 0x5D] = some 0 ∧
    hover_preview.parse_wiki_link (bytesOfAscii "[[]]") 2 =
      .ok (some (0, 2 + 0 + 2, [], none)) :=
  ⟨by decide, by decide, by decide,
   c9_empty_identifier (bytesOfAscii "[[]]") 2 0 0 (by decide) (by decide) (by decide)
     (by decide)⟩

/-! Helper lemmas about the reference index. -/

theorem mapLookup_insert (m : link_references.ReferencesMap) (k : ByteStr)
    (v : Nat × Nat) : link_references.mapLookup (link_references.mapInsert m k v) k = some v := by
  simp [link_references.mapInsert, link_references.mapLookup]

/-- A call that took the refresh path and succeeded left exactly the inserted
entry behind. -/
theorem core_invoked_ok {S : link_references.HybridIndex} {rg : link_references.RgEnv}
    {now : Nat} {vp : ByteStr} {c : Nat} {m : link_references.ReferencesMap}
    (h : link_references.get_references_count_core S rg now vp = ⟨.ok c, m, true⟩) :
    m = link_references.mapInsert S.inner vp (c, now) := by
  unfold link_references.get_references_count_core at h
  cases hl : link_references.mapLookup S.inner vp with
  | none =>
    simp only [hl] at h
    cases hs : link_references.search_with_ripgrep rg S.workspace_root vp with
    | error e => simp [hs] at h
    | ok cnt =>
      simp only [hs, link_references.RefCountResult.mk.injEq, Except.ok.injEq] at h
      obtain ⟨hc, hm, -⟩ := h
      rw [← hm, hc]
  | some p =>
    obtain ⟨c0, t0⟩ := p
    simp only [hl] at h
    by_cases hf : now - t0 < S.freshness
    · rw [if_pos hf] at h
      simp [link_references.RefCountResult.mk.injEq] at h
    · rw [if_neg hf] at h
      simp only at h
      cases hs : link_references.search_with_ripgrep rg S.workspace_root vp with
      | error e => simp [hs] at h
      | ok cnt =>
        simp only [hs, link_references.RefCountResult.mk.injEq, Except.ok.injEq] at h
        obtain ⟨hc, hm, -⟩ := h
        rw [← hm, hc]

/-- The fresh-cache fast path: a fresh entry is served from the map, without
invoking the backend and without modifying the map. -/
theorem core_fresh_hit {S : link_references.HybridIndex} {rg : link_references.RgEnv}
    {now : Nat} {vp : ByteStr} {c t : Nat}
    (hl : link_references.mapLookup S.inner vp = some (c, t))
    (hf : now - t < S.freshness) :
    link_references.get_references_count_core S rg now vp = ⟨.ok c, S.inner, false⟩ := by
  unfold link_references.get_references_count_core
  rw [hl]
  simp [if_pos hf]

/-- A spawn failure of the backend surfaces as `Err` from
`search_with_ripgrep`. -/
theorem search_spawn_failed {rg : link_references.RgEnv} {root vp : ByteStr}
    (h : rg root (link_references.rgPattern vp) = .failed) :
    link_references.search_with_ripgrep rg root vp = .error () := by
  unfold link_references.search_with_ripgrep
  rw [h]

/-- C1 counterexample: with a cold cache and a failing spawn,
`get_references_count` returns `Err`, not the count zero. -/
theorem c1_counterexample :
    (link_references.get_references_count
        (link_references.HybridIndex.new (bytesOfAscii "/ws") 600)
        (fun _ _ => .failed) 0 (bytesOfAscii "note")).1 = .error () ∧
    (Except.error () : Except Unit Nat) ≠ .ok 0 :=
  ⟨by decide, by decide⟩

/-- C1 amended: `get_references_count` itself propagates a backend spawn
failure as an error (when no fresh cache entry short-circuits it) and leaves
the map unchanged; the degradation to zero happens in its callers
(`code_lens`, `inlay_hint`), which apply `unwrap_or(0)`; whenever the call
returns `Ok`, the caller surfaces exactly that non-negative count. -/
theorem c1_amended :
    ∀ (S : link_references.HybridIndex) (rg : link_references.RgEnv)
      (now : Nat) (vp : ByteStr),
      (rg S.workspace_root (link_references.rgPattern vp) = .failed →
        (∀ c t, link_references.mapLookup S.inner vp = some (c, t) →
          S.freshness ≤ now - t) →
        link_references.get_references_count S rg now vp = (.error (), S.inner) ∧
        link_references.code_lens_reference_count S rg now vp = 0) ∧
      (∀ c, (link_references.get_references_count S rg now vp).1 = .ok c →
        link_references.code_lens_reference_count S rg now vp = c) := by
  intro S rg now vp
  constructor
  · intro hfail hstale
    have hcore : link_references.get_references_count_core S rg now vp =
        ⟨.error (), S.inner, true⟩ := by
      unfold link_references.get_references_count_core
      cases hl : link_references.mapLookup S.inner vp with
      | none =>
        simp only [hl]
        rw [search_spawn_failed hfail]
      | some p =>
        obtain ⟨c0, t0⟩ := p
        simp only [hl]
        rw [if_neg (by have := hstale c0 t0 hl; omega)]
        simp only
        rw [search_spawn_failed hfail]
    constructor
    · unfold link_references.get_references_count
      rw [hcore]
    · unfold link_references.code_lens_reference_count
      unfold link_references.get_references_count
      rw [hcore]
      rfl
  · intro c hok
    unfold link_references.code_lens_reference_count
    rw [hok]
    rfl

/-- C1 witness: the amended behaviour at a concrete cold cache with a spawn
failure. -/
theorem c1_witness :
    link_references.get_references_count
        (link_references.HybridIndex.new (bytesOfAscii "/ws") 600)
        (fun _ _ => .failed) 0 (bytesOfAscii "note") = (.error (), []) ∧
    link_references.code_lens_reference_count
        (link_references.HybridIndex.new (bytesOfAscii "/ws") 600)
        (fun _ _ => .failed) 0 (bytesOfAscii "note") = 0 :=
  (c1_amended (link_references.HybridIndex.new (bytesOfAscii "/ws") 600)
      (fun _ _ => .failed) 0 (bytesOfAscii "note")).1 rfl
    (by intro c t h; simp [link_references.HybridIndex.new, link_references.mapLookup] at h)

/-- C4: a call that completed and cached a count, followed within the
freshness window by a second call for the same identifier, returns the same
count without invoking the backend (the result is the fast-path one for every
possible backend environment, with the invoked flag false) and leaves the map
unchanged. -/
theorem c4_cache_fresh :
    ∀ (S : link_references.HybridIndex) (rg rg2 : link_references.RgEnv)
      (now1 now2 : Nat) (vp : ByteStr) (c : Nat)
      (m1 : link_references.ReferencesMap),
      link_references.get_references_count_core S rg now1 vp = ⟨.ok c, m1, true⟩ →
      now2 - now1 < S.freshness →
      link_references.get_references_count_core
          ⟨m1, S.freshness, S.workspace_root⟩ rg2 now2 vp = ⟨.ok c, m1, false⟩ := by
  intro S rg rg2 now1 now2 vp c m1 h hfresh
  have hm1 : m1 = link_references.mapInsert S.inner vp (c, now1) := core_invoked_ok h
  have hl : link_references.mapLookup m1 vp = some (c, now1) := by
    rw [hm1]
    exact mapLookup_insert _ _ _
  exact core_fresh_hit hl hfresh

/-- C4 witness: cache a count of 2 at instant 0, query again at instant 5
with a freshness window of 10 and a failing backend: the cached 2 is
returned without any backend call. -/
theorem c4_witness :
    link_references.get_references_count_core
        (link_references.HybridIndex.new (bytesOfAscii "/ws") 10)
        (fun _ _ => .output (bytesOfAscii "a1\nb2")) 0 (bytesOfAscii "p") =
      ⟨.ok 2, [(bytesOfAscii "p", (2, 0))], true⟩ ∧
    (5 : Nat) - 0 < 10 ∧
    link_references.get_references_count_core
        ⟨[(bytesOfAscii "p", (2, 0))], 10, bytesOfAscii "/ws"⟩
        (fun _ _ => .failed) 5 (bytesOfAscii "p") =
      ⟨.ok 2, [(bytesOfAscii "p", (2, 0))], false⟩ :=
  ⟨by decide, by decide,
   c4_cache_fresh (link_references.HybridIndex.new (bytesOfAscii "/ws") 10)
     (fun _ _ => .output (bytesOfAscii "a1\nb2")) (fun _ _ => .failed)
     0 5 (bytesOfAscii "p") 2 [(bytesOfAscii "p", (2, 0))] (by decide) (by decide)⟩

/-- C6: if the backend spawn fails, the call leaves the cache mapping exactly
as it was, and a subsequent query for a never-cached identifier still invokes
the backend afresh. -/
theorem c6_no_cache_poison :
    ∀ (S : link_references.HybridIndex) (rg rg2 : link_references.RgEnv)
      (now now2 : Nat) (vp : ByteStr),
      rg S.workspace_root (link_references.rgPattern vp) = .failed →
      (link_references.get_references_count_core S rg now vp).inner = S.inner ∧
      (link_references.mapLookup S.inner vp = none →
        (link_references.get_references_count_core
            ⟨(link_references.get_references_count_core S rg now vp).inner,
              S.freshness, S.workspace_root⟩ rg2 now2 vp).invoked = true) := by
  intro S rg rg2 now now2 vp hfail
  have hinner : (link_references.get_references_count_core S rg now vp).inner = S.inner := by
    unfold link_references.get_references_count_core
    cases hl : link_references.mapLookup S.inner vp with
    | none =>
      simp only [hl]
      rw [search_spawn_failed hfail]
    | some p =>
      obtain ⟨c0, t0⟩ := p
      simp only [hl]
      by_cases hf : now - t0 < S.freshness
      · rw [if_pos hf]
      · rw [if_neg hf]
        simp only
        rw [search_spawn_failed hfail]
  refine ⟨hinner, ?_⟩
  intro hcold
  rw [hinner]
  unfold link_references.get_references_count_core
  simp only [hcold]
  cases hs : link_references.search_with_ripgrep rg2 S.workspace_root vp with
  | error e => simp [hs]
  | ok cnt => simp [hs]

/-- C6 witness: the unchanged-map guarantee at a concrete cold cache. -/
theorem c6_witness :
    (link_references.get_references_count_core
        (link_references.HybridIndex.new (bytesOfAscii "/w") 600)
        (fun _ _ => .failed) 7 (bytesOfAscii "q")).inner =
      (link_references.HybridIndex.new (bytesOfAscii "/w") 600).inner ∧
    (link_references.get_references_count_core
        ⟨(link_references.get_references_count_core
            (link_references.HybridIndex.new (bytesOfAscii "/w") 600)
            (fun _ _ => .failed) 7 (bytesOfAscii "q")).inner, 600, bytesOfAscii "/w"⟩
        (fun _ _ => .output []) 9 (bytesOfAscii "q")).invoked = true :=
  ⟨(c6_no_cache_poison (link_references.HybridIndex.new (bytesOfAscii "/w") 600)
      (fun _ _ => .failed) (fun _ _ => .output []) 7 9 (bytesOfAscii "q") rfl).1,
   (c6_no_cache_poison (link_references.HybridIndex.new (bytesOfAscii "/w") 600)
      (fun _ _ => .failed) (fun _ _ => .output []) 7 9 (bytesOfAscii "q") rfl).2 rfl⟩

/-! UTF-8 lemmas for the panic/totality analysis. -/

theorem utf8Valid_head_not_cont {b : Nat} {r : List Nat}
    (h : utf8Valid (b :: r) = true) : contB b = false := by
  by_cases hb : b < 0x80
  · simp [contB]
    omega
  · by_contra hc
    simp only [Bool.not_eq_false] at hc
    have hrange : 0x80 ≤ b ∧ b < 0xC0 := by
      simpa [contB] using hc
    have hli : leadInfo b = none := by
      unfold leadInfo
      repeat rw [if_neg (by omega)]
    simp only [utf8Valid] at h
    rw [if_neg hb, hli] at h
    simp at h

theorem isCharBoundary_cons {a : Nat} {r : List Nat} {i : Nat} (hi : i ≠ 0) :
    isCharBoundary (a :: r) (i + 1) = isCharBoundary r i := by
  unfold isCharBoundary
  rw [if_neg (by omega), if_neg hi]
  have hg : (a :: r)[i + 1]? = r[i]? := by simp
  rw [hg]
  cases hge : r[i]? with
  | none =>
    simp only [List.length_cons]
    rw [decide_eq_decide]
    omega
  | some b => rfl

theorem leadInfo_shape {a k lo hi : Nat} (h : leadInfo a = some (k, lo, hi)) :
    (k = 1 ∨ k = 2 ∨ k = 3) ∧ 0x80 ≤ lo := by
  unfold leadInfo at h
  split_ifs at h <;> simp only [Option.some.injEq, Prod.mk.injEq] at h <;> omega

/-- In valid UTF-8, the position immediately after an ASCII byte is a
character boundary (it is the end of the sequence or holds a non-continuation
byte). -/
theorem utf8_after_ascii :
    ∀ (n : Nat) (l : List Nat), l.length ≤ n → utf8Valid l = true →
      ∀ i b, getElem? l i = some b → b < 0x80 → isCharBoundary l (i + 1) = true := by
  intro n
  induction n with
  | zero =>
    intro l hl hv i b hib hb
    have hnil : l = [] := List.length_eq_zero.mp (by omega)
    subst hnil
    simp at hib
  | succ n ih =>
    intro l hl hv i b hib hb
    cases l with
    | nil => simp at hib
    | cons a r =>
      simp only [utf8Valid] at hv
      by_cases ha : a < 0x80
      · rw [if_pos ha] at hv
        cases i with
        | zero =>
          cases r with
          | nil => simp [isCharBoundary]
          | cons c r' =>
            have hc := utf8Valid_head_not_cont hv
            unfold isCharBoundary
            rw [if_neg (by omega)]
            have hg : (a :: c :: r')[0 + 1]? = some c := by simp
            rw [hg]
            simp [contB] at hc
            simp
            omega
        | succ i' =>
          have hib' : getElem? r i' = some b := by simpa using hib
          have hr := ih r (by simp at hl; omega) hv i' b hib' hb
          rw [isCharBoundary_cons (by omega)]
          exact hr
      · rw [if_neg ha] at hv
        cases hli : leadInfo a with
        | none => rw [hli] at hv; simp at hv
        | some info =>
          obtain ⟨k, lo, hi'⟩ := info
          rw [hli] at hv
          obtain ⟨hk, hlo⟩ := leadInfo_shape hli
          rcases hk with rfl | rfl | rfl
          · cases r with
            | nil => simp at hv
            | cons c1 r2 =>
              simp [inRangeB] at hv
              obtain ⟨⟨hc1lo, -⟩, hv2⟩ := hv
              match i with
              | 0 =>
                have hab : a = b := by simpa using hib
                omega
              | 1 =>
                have hab : c1 = b := by simpa using hib
                omega
              | (i'' + 2) =>
                have hib' : getElem? r2 i'' = some b := by simpa using hib
                have hr := ih r2 (by simp at hl; omega) hv2 i'' b hib' hb
                rw [isCharBoundary_cons (by omega), isCharBoundary_cons (by omega)]
                exact hr
          · cases r with
            | nil => simp at hv
            | cons c1 r' =>
              cases r' with
              | nil => simp at hv
              | cons c2 r2 =>
                simp [inRangeB, contB] at hv
                obtain ⟨⟨⟨hc1lo, -⟩, hc2lo, -⟩, hv2⟩ := hv
                match i with
                | 0 =>
                  have hab : a = b := by simpa using hib
                  omega
                | 1 =>
                  have hab : c1 = b := by simpa using hib
                  omega
                | 2 =>
                  have hab : c2 = b := by simpa using hib
                  omega
                | (i'' + 3) =>
                  have hib' : getElem? r2 i'' = some b := by simpa using hib
                  have hr := ih r2 (by simp at hl; omega) hv2 i'' b hib' hb
                  rw [isCharBoundary_cons (by omega), isCharBoundary_cons (by omega),
                    isCharBoundary_cons (by omega)]
                  exact hr
          · cases r with
            | nil => simp at hv
            | cons c1 r' =>
              cases r' with
              | nil => simp at hv
              | cons c2 r'' =>
                cases r'' with
                | nil => simp at hv
                | cons c3 r2 =>
                  simp [inRangeB, contB] at hv
                  obtain ⟨⟨⟨⟨hc1lo, -⟩, hc2lo, -⟩, hc3lo, -⟩, hv2⟩ := hv
                  match i with
                  | 0 =>
                    have hab : a = b := by simpa using hib
                    omega
                  | 1 =>
                    have hab : c1 = b := by simpa using hib
                    omega
                  | 2 =>
                    have hab : c2 = b := by simpa using hib
                    omega
                  | 3 =>
                    have hab : c3 = b := by simpa using hib
                    omega
                  | (i'' + 4) =>
                    have hib' : getElem? r2 i'' = some b := by simpa using hib
                    have hr := ih r2 (by simp at hl; omega) hv2 i'' b hib' hb
                    rw [isCharBoundary_cons (by omega), isCharBoundary_cons (by omega),
                      isCharBoundary_cons (by omega), isCharBoundary_cons (by omega)]
                    exact hr

/-- C10: on a valid UTF-8 line, the parser never panics when the cursor is a
character-boundary byte index (it returns some `Ok`), while a cursor beyond
the line's byte length, or one inside a multi-byte character, makes the
initial string slicing panic. -/
theorem c10_panic_boundary :
    (∀ (l : ByteStr) (col : Nat), utf8Valid l = true → isCharBoundary l col = true →
      ∃ o, hover_preview.parse_wiki_link l col = .ok o) ∧
    hover_preview.parse_wiki_link [0xC3, 0xA9] 1 = .error () ∧
    hover_preview.parse_wiki_link (bytesOfAscii "ab") 5 = .error () := by
  refine ⟨?_, by decide, by decide⟩
  intro l col hux hbnd
  unfold hover_preview.parse_wiki_link
  have hsb : sliceTo l col = .ok (l.take col) := by
    unfold sliceTo
    rw [if_pos hbnd]
  have hsa : sliceFrom l col = .ok (l.drop col) := by
    unfold sliceFrom
    rw [if_pos hbnd]
  rw [hsb]
  cases hrf : rfindSub (l.take col) [0x5B, 0x5B] with
  | none => exact ⟨none, by simp [hrf]⟩
  | some start =>
    simp only [hrf]
    rw [hsa]
    cases hfd : findSub (l.drop col) [0x5D, 0x5D] with
    | none => exact ⟨none, by simp [hfd]⟩
    | some rel =>
      simp only [hfd]
      by_cases hguard : col < start ∨ (col + rel) + 2 < col
      · rw [if_pos hguard]
        exact ⟨none, rfl⟩
      · rw [if_neg hguard]
        have hcol_le : col ≤ l.length := isCharBoundary_le hbnd
        have hstart2 : start + 2 ≤ col := by
          have hs2 := rfindSub_add_le hrf
          simp [List.length_take] at hs2
          omega
        have hge := prefix_two_getElem (rfindSub_isPrefixOf hrf)
        have hb1 : getElem? l (start + 1) = some 0x5B := by
          have h2 := hge.2
          rw [List.getElem?_take_of_lt (by omega)] at h2
          exact h2
        have hbnd_s2 : isCharBoundary l (start + 2) = true :=
          utf8_after_ascii l.length l le_rfl hux (start + 1) 0x5B hb1 (by omega)
        have hb2 : getElem? l (col + rel) = some 0x5D := by
          have h2 := (prefix_two_getElem (findSub_isPrefixOf hfd)).1
          rw [List.getElem?_drop] at h2
          exact h2
        have hbnd_e : isCharBoundary l (col + rel) = true :=
          isCharBoundary_of_ascii hb2 (by omega)
        have hcond : start + 2 ≤ col + rel ∧ isCharBoundary l (start + 2) = true ∧
            isCharBoundary l (col + rel) = true := ⟨by omega, hbnd_s2, hbnd_e⟩
        have hsbtw : sliceBetween l (start + 2) (col + rel) =
            .ok ((l.drop (start + 2)).take (col + rel - (start + 2))) := by
          unfold sliceBetween
          rw [if_pos hcond]
        rw [hsbtw]
        cases hsp : splitOnByte 0x7C ((l.drop (start + 2)).take (col + rel - (start + 2))) with
        | nil => exact ⟨none, by simp [hsp]⟩
        | cons p0 rest =>
          simp only [hsp]
          exact ⟨_, rfl⟩

/-- C10 witness: totality at a concrete valid line and boundary cursor. -/
theorem c10_witness :
    utf8Valid (bytesOfAscii "[[x]]") = true ∧
    isCharBoundary (bytesOfAscii "[[x]]") 2 = true ∧
    ∃ o, hover_preview.parse_wiki_link (bytesOfAscii "[[x]]") 2 = .ok o :=
  ⟨by decide, by decide,
   c10_panic_boundary.1 (bytesOfAscii "[[x]]") 2 (by decide) (by decide)⟩

/-! Language lemmas for the regex fragment. -/

theorem mem_catList_nil {x : ByteStr} : x ∈ (catList []).matches' ↔ x = [] := by
  simp only [catList, List.foldr_nil]
  rw [RegularExpression.matches'_epsilon]
  exact Language.mem_one x

theorem mem_catList_cons {r : BRegex} {rs : List BRegex} {x : ByteStr} :
    x ∈ (catList (r :: rs)).matches' ↔
      ∃ a ∈ r.matches', ∃ b ∈ (catList rs).matches', a ++ b = x := by
  rw [show catList (r :: rs) = r * catList rs from rfl,
    RegularExpression.matches'_mul]
  exact Language.mem_mul

theorem mem_litList {l x : ByteStr} : x ∈ (litList l).matches' ↔ x = l := by
  induction l generalizing x with
  | nil => exact mem_catList_nil
  | cons b t ih =>
    rw [show litList (b :: t) = catList (RegularExpression.char b :: t.map RegularExpression.char)
      from rfl]
    rw [mem_catList_cons]
    constructor
    · rintro ⟨a, ha, c, hc, rfl⟩
      rw [RegularExpression.matches'_char] at ha
      have ha' : a = [b] := ha
      have hc' : c = t := (ih).mp hc
      rw [ha', hc']
      rfl
    · rintro rfl
      refine ⟨[b], ?_, t, ?_, rfl⟩
      · rw [RegularExpression.matches'_char]
        rfl
      · exact (ih).mpr rfl

theorem mem_altList {rs : List BRegex} {x : ByteStr} :
    x ∈ (altList rs).matches' ↔ ∃ r ∈ rs, x ∈ r.matches' := by
  induction rs with
  | nil =>
    simp only [altList, List.foldr_nil]
    rw [RegularExpression.matches'_zero]
    simp [Language.not_mem_zero]
  | cons r rs ih =>
    rw [show altList (r :: rs) = r + altList rs from rfl,
      RegularExpression.matches'_add]
    rw [Language.mem_add]
    simp only [List.mem_cons]
    constructor
    · rintro (hx | hx)
      · exact ⟨r, Or.inl rfl, hx⟩
      · obtain ⟨r', hr', hx'⟩ := ih.mp hx
        exact ⟨r', Or.inr hr', hx'⟩
    · rintro ⟨r', hr' | hr', hx'⟩
      · subst hr'
        exact Or.inl hx'
      · exact Or.inr (ih.mpr ⟨r', hr', hx'⟩)

theorem mem_wsRegex {x : ByteStr} : x ∈ wsRegex.matches' ↔ x ∈ wsEncodings := by
  unfold wsRegex
  rw [mem_altList]
  constructor
  · rintro ⟨r, hr, hx⟩
    obtain ⟨w, hw, rfl⟩ := List.mem_map.mp hr
    rw [mem_litList] at hx
    rw [hx]
    exact hw
  · intro hx
    exact ⟨litList x, List.mem_map.mpr ⟨x, hx, rfl⟩, mem_litList.mpr rfl⟩

theorem mem_wsStar {x : ByteStr} : x ∈ (wsRegex.star).matches' ↔ WsRun x := by
  rw [RegularExpression.matches'_star, Language.mem_kstar]
  unfold WsRun
  constructor
  · rintro ⟨L, rfl, hL⟩
    exact ⟨L, rfl, fun y hy => mem_wsRegex.mp (hL y hy)⟩
  · rintro ⟨L, rfl, hL⟩
    exact ⟨L, rfl, fun y hy => mem_wsRegex.mpr (hL y hy)⟩

theorem mem_groupAst {x : ByteStr} :
    x ∈ groupAst.matches' ↔ x = [0x7C] ∨ x = [0x5D, 0x5D] := by
  unfold groupAst
  rw [RegularExpression.matches'_add, Language.mem_add]
  rw [show catList [RegularExpression.char 0x7C] = litList [0x7C] from rfl]
  rw [show catList [RegularExpression.char 0x5D, RegularExpression.char 0x5D] =
    litList [0x5D, 0x5D] from rfl]
  rw [mem_litList, mem_litList]

theorem mem_id_group {id x : ByteStr} :
    x ∈ (catList (id.map RegularExpression.char ++ [groupAst])).matches' ↔
      ∃ g, (g = [0x7C] ∨ g = [0x5D, 0x5D]) ∧ x = id ++ g := by
  induction id generalizing x with
  | nil =>
    simp only [List.map_nil, List.nil_append]
    rw [show catList [groupAst] = groupAst * catList [] from rfl,
      RegularExpression.matches'_mul, Language.mem_mul]
    constructor
    · rintro ⟨a, ha, b, hb, rfl⟩
      rw [show (catList []).matches' = (1 : Language Nat) from by
        simp only [catList, List.foldr_nil]; rw [RegularExpression.matches'_epsilon]] at hb
      rw [Language.mem_one] at hb
      subst hb
      rw [mem_groupAst] at ha
      exact ⟨a, ha, by simp⟩
    · rintro ⟨g, hg, hx⟩
      refine ⟨g, mem_groupAst.mpr hg, [], ?_, by simp [hx]⟩
      rw [show (catList []).matches' = (1 : Language Nat) from by
        simp only [catList, List.foldr_nil]; rw [RegularExpression.matches'_epsilon]]
      exact Language.nil_mem_one
  | cons b t ih =>
    rw [show catList ((b :: t).map RegularExpression.char ++ [groupAst]) =
      catList (RegularExpression.char b :: (t.map RegularExpression.char ++ [groupAst]))
      from rfl]
    rw [mem_catList_cons]
    constructor
    · rintro ⟨a, ha, c, hc, rfl⟩
      rw [RegularExpression.matches'_char] at ha
      have ha' : a = [b] := ha
      obtain ⟨g, hg, rfl⟩ := ih.mp hc
      exact ⟨g, hg, by rw [ha']; rfl⟩
    · rintro ⟨g, hg, rfl⟩
      refine ⟨[b], ?_, t ++ g, ih.mpr ⟨g, hg, rfl⟩, rfl⟩
      rw [RegularExpression.matches'_char]
      rfl

theorem mem_rgPatternAst {id x : ByteStr} :
    x ∈ (rgPatternAst id).matches' ↔
      ∃ w g, WsRun w ∧ (g = [0x7C] ∨ g = [0x5D, 0x5D]) ∧
        x = [0x5B, 0x5B] ++ w ++ id ++ g := by
  unfold rgPatternAst
  rw [show ([RegularExpression.char 0x5B, RegularExpression.char 0x5B, wsRegex.star] ++
      id.map RegularExpression.char ++ [groupAst]) =
    RegularExpression.char 0x5B :: RegularExpression.char 0x5B :: wsRegex.star ::
      (id.map RegularExpression.char ++ [groupAst]) from rfl]
  rw [mem_catList_cons]
  constructor
  · rintro ⟨a1, ha1, c1, hc1, rfl⟩
    rw [RegularExpression.matches'_char] at ha1
    have ha1' : a1 = [0x5B] := ha1
    rw [mem_catList_cons] at hc1
    obtain ⟨a2, ha2, c2, hc2, rfl⟩ := hc1
    rw [RegularExpression.matches'_char] at ha2
    have ha2' : a2 = [0x5B] := ha2
    rw [mem_catList_cons] at hc2
    obtain ⟨w, hw, c3, hc3, rfl⟩ := hc2
    rw [mem_wsStar] at hw
    obtain ⟨g, hg, rfl⟩ := mem_id_group.mp hc3
    refine ⟨w, g, hw, hg, ?_⟩
    rw [ha1', ha2']
    simp
  · rintro ⟨w, g, hw, hg, rfl⟩
    refine ⟨[0x5B], ?_, [0x5B] ++ (w ++ (id ++ g)), ?_, by simp⟩
    · rw [RegularExpression.matches'_char]
      rfl
    · rw [mem_catList_cons]
      refine ⟨[0x5B], ?_, w ++ (id ++ g), ?_, rfl⟩
      · rw [RegularExpression.matches'_char]
        rfl
      · rw [mem_catList_cons]
        exact ⟨w, mem_wsStar.mpr hw, id ++ g, mem_id_group.mpr ⟨g, hg, rfl⟩, rfl⟩

/-! Parsing the emitted pattern string back into its regex. -/

theorem escapeBytes_cons (b : Nat) (t : ByteStr) :
    link_references.escapeBytes (b :: t) =
      (if link_references.isMetaByte b then [0x5C, b] else [b]) ++
        link_references.escapeBytes t := by
  simp [link_references.escapeBytes]

theorem escape_head_ne (t : ByteStr) :
    (link_references.escapeBytes t ++ groupBytes).head? ≠ some 0x2A := by
  cases t with
  | nil =>
    simp [link_references.escapeBytes, groupBytes]
  | cons b t' =>
    rw [escapeBytes_cons]
    by_cases hm : link_references.isMetaByte b = true
    · rw [if_pos hm]
      simp
    · rw [if_neg hm]
      have hb : b ≠ 0x2A := by
        intro he
        subst he
        exact hm (by decide)
      simpa using hb

theorem escapeBytes_length (id : ByteStr) :
    id.length ≤ (link_references.escapeBytes id).length := by
  induction id with
  | nil => simp [link_references.escapeBytes]
  | cons b t ih =>
    rw [escapeBytes_cons]
    rw [List.length_append]
    split_ifs <;> simp <;> omega

/-- One parse step of a plain (unescaped, non-meta) literal byte. -/
theorem parseSeqTop_step_plain {b : Nat} {t : ByteStr} (f : Nat)
    (hb : ¬ (b = 0x28 ∨ b = 0x29 ∨ b = 0x7C ∨ b = 0x2A)) (hb5C : ¬ b = 0x5C)
    (ht : t.head? ≠ some 0x2A) :
    parseSeqTop (f + 1) (b :: t) =
      match parseSeqTop f t with
      | none => none
      | some rs => some (RegularExpression.char b :: rs) := by
  simp only [parseSeqTop, parseItem, parseLit]
  rw [if_neg (fun he => hb (Or.inl he)), if_neg hb5C, if_neg hb]
  cases t with
  | nil => rfl
  | cons c cs =>
    have hc : ¬ c = 0x2A := by simpa using ht
    simp [withStar, hc]

/-- One parse step of an escaped literal byte. -/
theorem parseSeqTop_step_esc {b : Nat} {t : ByteStr} (f : Nat)
    (hb73 : ¬ b = 0x73) (ht : t.head? ≠ some 0x2A) :
    parseSeqTop (f + 1) (0x5C :: b :: t) =
      match parseSeqTop f t with
      | none => none
      | some rs => some (RegularExpression.char b :: rs) := by
  simp only [parseSeqTop, parseItem, parseLit]
  norm_num
  rw [if_neg hb73]
  cases t with
  | nil => rfl
  | cons c cs =>
    have hc : ¬ c = 0x2A := by simpa using ht
    simp [withStar, hc]

/-- One parse step of the starred whitespace class `\s*`. -/
theorem parseSeqTop_step_ws {t : ByteStr} (f : Nat) :
    parseSeqTop (f + 1) (0x5C :: 0x73 :: 0x2A :: t) =
      match parseSeqTop f t with
      | none => none
      | some rs => some (wsRegex.star :: rs) := by
  simp only [parseSeqTop, parseItem, parseLit]
  norm_num
  simp [withStar]

/-- The fixed trailing group parses to `groupAst` whatever fuel remains. -/
theorem parseSeqTop_group (f : Nat) :
    parseSeqTop (f + 1) groupBytes = some [groupAst] := by
  show parseSeqTop (f + 1)
    (0x28 :: [0x5C, 0x7C, 0x7C, 0x5C, 0x5D, 0x5C, 0x5D, 0x29]) = some [groupAst]
  simp only [parseSeqTop]
  rw [show parseItem (0x28 :: [0x5C, 0x7C, 0x7C, 0x5C, 0x5D, 0x5C, 0x5D, 0x29]) =
    some (groupAst, []) from rfl]
  simp [parseSeqTop]

theorem parseSeqTop_escape :
    ∀ (id : ByteStr) (fuel : Nat), id.length + 1 ≤ fuel →
      parseSeqTop fuel (link_references.escapeBytes id ++ groupBytes) =
        some (id.map RegularExpression.char ++ [groupAst]) := by
  intro id
  induction id with
  | nil =>
    intro fuel hf
    obtain ⟨f, rfl⟩ : ∃ f, fuel = f + 1 := ⟨fuel - 1, by omega⟩
    rw [show link_references.escapeBytes [] ++ groupBytes = groupBytes from by
      simp [link_references.escapeBytes]]
    rw [parseSeqTop_group]
    rfl
  | cons b t ih =>
    intro fuel hf
    obtain ⟨f, rfl⟩ : ∃ f, fuel = f + 1 := ⟨fuel - 1, by omega⟩
    rw [escapeBytes_cons]
    by_cases hm : link_references.isMetaByte b = true
    · rw [if_pos hm]
      have hb73 : ¬ b = 0x73 := by
        intro he
        subst he
        exact absurd hm (by decide)
      rw [show ([0x5C, b] ++ link_references.escapeBytes t) ++ groupBytes =
        0x5C :: b :: (link_references.escapeBytes t ++ groupBytes) from by simp]
      rw [parseSeqTop_step_esc f hb73 (escape_head_ne t)]
      rw [ih f (by simp at hf ⊢; omega)]
      simp
    · rw [if_neg hm]
      have hneOr : ¬ (b = 0x28 ∨ b = 0x29 ∨ b = 0x7C ∨ b = 0x2A) := by
        rintro (he | he | he | he) <;> (subst he; exact hm (by decide))
      have hne5C : ¬ b = 0x5C := fun he => by subst he; exact hm (by decide)
      rw [show ([b] ++ link_references.escapeBytes t) ++ groupBytes =
        b :: (link_references.escapeBytes t ++ groupBytes) from by simp]
      rw [parseSeqTop_step_plain f hneOr hne5C (escape_head_ne t)]
      rw [ih f (by simp at hf ⊢; omega)]
      simp

theorem parseSeqTop_rgPattern (id : ByteStr) (fuel : Nat) (hf : id.length + 4 ≤ fuel) :
    parseSeqTop fuel (link_references.rgPattern id) =
      some (RegularExpression.char 0x5B :: RegularExpression.char 0x5B :: wsRegex.star ::
        (id.map RegularExpression.char ++ [groupAst])) := by
  obtain ⟨f, rfl⟩ : ∃ f, fuel = f + 3 := ⟨fuel - 3, by omega⟩
  rw [show link_references.rgPattern id =
    0x5C :: 0x5B :: 0x5C :: 0x5B :: 0x5C :: 0x73 :: 0x2A ::
      (link_references.escapeBytes id ++ groupBytes) from by
    simp [link_references.rgPattern, groupBytes]]
  rw [show (f + 3) = (f + 2) + 1 from rfl]
  rw [parseSeqTop_step_esc (f + 2) (by norm_num) (by simp)]
  rw [show (f + 2) = (f + 1) + 1 from rfl]
  rw [parseSeqTop_step_esc (f + 1) (by norm_num) (by simp)]
  rw [parseSeqTop_step_ws f]
  rw [parseSeqTop_escape id f (by omega)]

theorem parseRegexStr_rgPattern (id : ByteStr) :
    parseRegexStr (link_references.rgPattern id) = some (rgPatternAst id) := by
  unfold parseRegexStr
  rw [parseSeqTop_rgPattern id ((link_references.rgPattern id).length + 1) (by
    have h1 := escapeBytes_length id
    simp [link_references.rgPattern]
    omega)]
  rfl

/-- C8 counterexample: for the identifier `x` the emitted pattern also
matches `[[ x]]` (whitespace after the opening marker), which is neither of
the claim's two surface forms of a link to `x`. -/
theorem c8_counterexample :
    parseRegexStr (link_references.rgPattern (bytesOfAscii "x")) =
      some (rgPatternAst (bytesOfAscii "x")) ∧
    (rgPatternAst (bytesOfAscii "x")).rmatch (bytesOfAscii "[[ x]]") = true ∧
    specSurfaceForm (bytesOfAscii "x") (bytesOfAscii "[[ x]]") = false :=
  ⟨rfl, rfl, by decide⟩

/-- C8 amended: the pattern string handed to the backend denotes, in the
backend's pattern syntax, a regex that matches a piece of text exactly when
that text is the opening marker, an arbitrary run of whitespace, then the
identifier matched literally byte for byte (even pattern metacharacters),
then either a bar or the closing marker. -/
theorem c8_amended :
    ∀ (id t : ByteStr), ∃ r,
      parseRegexStr (link_references.rgPattern id) = some r ∧
      (r.rmatch t = true ↔ ∃ w, WsRun w ∧
        (t = [0x5B, 0x5B] ++ w ++ id ++ [0x7C] ∨
         t = [0x5B, 0x5B] ++ w ++ id ++ [0x5D, 0x5D])) := by
  intro id t
  refine ⟨rgPatternAst id, parseRegexStr_rgPattern id, ?_⟩
  have hiff := RegularExpression.rmatch_iff_matches' (rgPatternAst id) t
  constructor
  · intro h
    have hm := mem_rgPatternAst.mp (hiff.mp h)
    obtain ⟨w, g, hw, hg, rfl⟩ := hm
    refine ⟨w, hw, ?_⟩
    rcases hg with rfl | rfl
    · exact Or.inl rfl
    · exact Or.inr rfl
  · rintro ⟨w, hw, ht | ht⟩
    · exact hiff.mpr (mem_rgPatternAst.mpr ⟨w, [0x7C], hw, Or.inl rfl, ht⟩)
    · exact hiff.mpr (mem_rgPatternAst.mpr ⟨w, [0x5D, 0x5D], hw, Or.inr rfl, ht⟩)
